import Mathlib

/-!
Shallow embedding of the ProFIT process-mining engine (files `src/Log.py` and
`src/profit/graph.py`), together with proofs of the specification claims.

Python dictionaries are modelled as association lists (`List (κ × β)`), kept in
insertion order exactly as CPython dictionaries are; dictionary lookup is
`alookup`, in-place value assignment is `aupdate`.  Activities are strings, as
in the source.  Floating-point significance values are modelled as rationals.
-/

namespace ProFIT

/-- Activity labels; the source uses plain Python strings (plus the virtual
activities "start" and "end"). -/
abbrev Act := String

/-- Dictionary lookup on an association list (Python `d[k]` / `k in d`). -/
def alookup {κ β : Type} [DecidableEq κ] : List (κ × β) → κ → Option β
  | [], _ => none
  | e :: rest, a => if e.1 = a then some e.2 else alookup rest a

/-- Dictionary value assignment for an existing key (Python `d[k] = v`). -/
def aupdate {κ β : Type} [DecidableEq κ] (l : List (κ × β)) (k : κ) (v : β) :
    List (κ × β) :=
  l.map fun e => if e.1 = k then (k, v) else e

@[simp] theorem alookup_nil {κ β : Type} [DecidableEq κ] (a : κ) :
    alookup ([] : List (κ × β)) a = none := rfl

@[simp] theorem alookup_cons {κ β : Type} [DecidableEq κ] (e : κ × β)
    (l : List (κ × β)) (a : κ) :
    alookup (e :: l) a = if e.1 = a then some e.2 else alookup l a := rfl

theorem alookup_append {κ β : Type} [DecidableEq κ] (l₁ l₂ : List (κ × β)) (a : κ) :
    alookup (l₁ ++ l₂) a =
      match alookup l₁ a with
      | some v => some v
      | none => alookup l₂ a := by
  induction l₁ with
  | nil => simp
  | cons e rest ih =>
    by_cases h : e.1 = a <;> simp [h, ih]

theorem alookup_aupdate_self {κ β : Type} [DecidableEq κ] (l : List (κ × β))
    (k : κ) (v : β) (h : (alookup l k).isSome) :
    alookup (aupdate l k v) k = some v := by
  induction l with
  | nil => simp [alookup] at h
  | cons e rest ih =>
    by_cases hk : e.1 = k
    · simp [aupdate, hk]
    · simp [alookup, hk] at h
      simpa [aupdate, hk] using ih h

theorem alookup_aupdate_ne {κ β : Type} [DecidableEq κ] (l : List (κ × β))
    (k k' : κ) (v : β) (h : k ≠ k') :
    alookup (aupdate l k v) k' = alookup l k' := by
  induction l with
  | nil => simp [aupdate]
  | cons e rest ih =>
    by_cases hk : e.1 = k
    · simp only [aupdate, List.map_cons, hk, if_pos rfl, alookup_cons]
      have : ¬ (k = k') := h
      simp [this, hk, ih]
      change alookup (aupdate rest k v) k' = _
      exact ih
    · simp only [aupdate, List.map_cons, if_neg hk, alookup_cons]
      by_cases hk' : e.1 = k' <;> simp [hk', ih] <;>
        first
        | rfl
        | (change alookup (aupdate rest k v) k' = _; exact ih)

/-- Membership in the key set of an association list is the same as a
successful lookup. -/
theorem mem_keys_iff_alookup {κ β : Type} [DecidableEq κ] (l : List (κ × β)) (a : κ) :
    a ∈ l.map Prod.fst ↔ (alookup l a).isSome := by
  induction l with
  | nil => simp
  | cons e rest ih =>
    by_cases h : e.1 = a
    · simp [h]
    · simp [alookup, h, ← ih, eq_comm]
      intro hh; exact absurd hh.symm h

/-- Adjacent pairs of a trace (Python `zip(t, t[1:])`). -/
def adjPairs (t : List Act) : List (Act × Act) := t.zip t.tail

/-!
Embedding of `Log.transit_matrix` (src/Log.py, lines 13-36).

The Python code keeps a nested dictionary `T[a_i][a_j] = [absolute, case]`
together with a nested Boolean dictionary `to_add` whose flags are all reset to
`True` at the end of every case, so that the case counter of a pair is bumped
at most once per case.  The nested dictionaries are flattened here to a single
association list keyed by the ordered pair `(a_i, a_j)` (no claim depends on
the nesting), and the `to_add` flags are represented by the list `counted` of
the pairs whose flag is currently `False`, i.e. the pairs already counted in
the running case; resetting every flag to `True` at a case boundary is
starting the next case with `counted = []`.
-/

/-- One iteration of the inner loop of `Log.transit_matrix`
(src/Log.py lines 17-29): create the entry `[0, 0]` if the pair is new, bump
the absolute counter, and bump the case counter when the pair has not yet been
counted in this case. -/
def transitStep (st : List ((Act × Act) × ℕ × ℕ) × List (Act × Act))
    (p : Act × Act) : List ((Act × Act) × ℕ × ℕ) × List (Act × Act) :=
  match alookup st.1 p with
  | none => (st.1 ++ [(p, (1, 1))], st.2 ++ [p])
  | some fc =>
      if p ∈ st.2 then (aupdate st.1 p (fc.1 + 1, fc.2), st.2)
      else (aupdate st.1 p (fc.1 + 1, fc.2 + 1), st.2 ++ [p])

/-- The transition-matrix builder `Log.transit_matrix` (src/Log.py lines
13-36).  The log is the list of its traces (the values of `flat_log`, one per
case). -/
def transit_matrix (traces : List (List Act)) : List ((Act × Act) × ℕ × ℕ) :=
  traces.foldl (fun T t => ((adjPairs t).foldl transitStep (T, [])).1) []

/-- Effect of one case's scan on the entry of a fixed pair: the absolute
counter grows by the number of occurrences of the pair among the case's
adjacencies, the case counter by one exactly when the pair occurs and was not
already counted. -/
theorem transit_fold_alookup (p : Act × Act) :
    ∀ (l : List (Act × Act)) (T : List ((Act × Act) × ℕ × ℕ))
      (counted : List (Act × Act)),
    alookup ((l.foldl transitStep (T, counted)).1) p =
      match alookup T p with
      | none => if l.count p = 0 then none else some (l.count p, 1)
      | some fc =>
          some (fc.1 + l.count p,
                fc.2 + if l.count p ≠ 0 ∧ p ∉ counted then 1 else 0) := by
  intro l
  induction l with
  | nil =>
    intro T counted
    cases h : alookup T p <;> simp [h]
  | cons q rest ih =>
    intro T counted
    by_cases hq : q = p
    · subst hq
      cases h : alookup T q with
      | none =>
        have hstep : transitStep (T, counted) q = (T ++ [(q, (1, 1))], counted ++ [q]) := by
          simp [transitStep, h]
        simp only [List.foldl_cons, hstep, ih]
        have h1 : alookup (T ++ [(q, (1, 1))]) q = some (1, 1) := by
          simp [alookup_append, h, alookup]
        rw [h1]
        simp [List.count_cons, Nat.add_comm]
      | some fc =>
        by_cases hc : q ∈ counted
        · have hstep : transitStep (T, counted) q =
              (aupdate T q (fc.1 + 1, fc.2), counted) := by
            simp [transitStep, h, hc]
          simp only [List.foldl_cons, hstep, ih]
          have h1 : alookup (aupdate T q (fc.1 + 1, fc.2)) q = some (fc.1 + 1, fc.2) :=
            alookup_aupdate_self T q _ (by simp [h])
          rw [h1]
          simp [hc, List.count_cons, Nat.add_assoc, Nat.add_comm 1]
        · have hstep : transitStep (T, counted) q =
              (aupdate T q (fc.1 + 1, fc.2 + 1), counted ++ [q]) := by
            simp [transitStep, h, hc]
          simp only [List.foldl_cons, hstep, ih]
          have h1 : alookup (aupdate T q (fc.1 + 1, fc.2 + 1)) q =
              some (fc.1 + 1, fc.2 + 1) :=
            alookup_aupdate_self T q _ (by simp [h])
          rw [h1]
          simp [hc, List.count_cons, Nat.add_assoc, Nat.add_comm 1]
    · have hcount : (q :: rest).count p = rest.count p := by
        simp [List.count_cons, hq]
      have hmain : ∀ st : List ((Act × Act) × ℕ × ℕ) × List (Act × Act),
          alookup (transitStep st q).1 p = alookup st.1 p ∧
            (p ∈ (transitStep st q).2 ↔ p ∈ st.2) := by
        intro st
        cases h : alookup st.1 q with
        | none =>
          constructor
          · simp [transitStep, h, alookup_append, alookup, hq]
            cases halt : alookup st.1 p <;> simp [halt, Ne.symm hq]
          · simp [transitStep, h, Ne.symm hq]
        | some fc =>
          by_cases hc : q ∈ st.2 <;>
            simp [transitStep, h, hc, alookup_aupdate_ne _ _ _ _ hq, Ne.symm hq]
      have hstep := hmain (T, counted)
      simp only [List.foldl_cons, ih, hcount]
      rcases hstep with ⟨h1, h2⟩
      rw [h1]
      cases halt : alookup T p with
      | none => simp
      | some fc =>
        by_cases hc : p ∈ counted <;> simp [hc, h2]

/-- Per-pair characterization of the full transition matrix: the absolute
counter of a pair is its total number of adjacent occurrences over all cases,
and the case counter is the number of cases in which it occurs at least once. -/
theorem transit_matrix_alookup (traces : List (List Act)) (p : Act × Act) :
    alookup (transit_matrix traces) p =
      if (traces.map fun t => (adjPairs t).count p).sum = 0 then none
      else some ((traces.map fun t => (adjPairs t).count p).sum,
                 traces.countP fun t => decide ((adjPairs t).count p ≠ 0)) := by
  have gen : ∀ (ts : List (List Act)) (T : List ((Act × Act) × ℕ × ℕ)),
      alookup (ts.foldl (fun T t => ((adjPairs t).foldl transitStep (T, [])).1) T) p =
        match alookup T p with
        | none =>
            if (ts.map fun t => (adjPairs t).count p).sum = 0 then none
            else some ((ts.map fun t => (adjPairs t).count p).sum,
                       ts.countP fun t => decide ((adjPairs t).count p ≠ 0))
        | some fc =>
            some (fc.1 + (ts.map fun t => (adjPairs t).count p).sum,
                  fc.2 + ts.countP fun t => decide ((adjPairs t).count p ≠ 0)) := by
    intro ts
    induction ts with
    | nil =>
      intro T
      cases h : alookup T p <;> simp [h]
    | cons t rest ih =>
      intro T
      simp only [List.foldl_cons, ih, transit_fold_alookup]
      cases h : alookup T p with
      | none =>
        by_cases h0 : (adjPairs t).count p = 0
        · simp [h0, List.countP_cons]
        · simp only [h0, if_neg h0]
          by_cases hrest : (rest.map fun t => (adjPairs t).count p).sum = 0
          · simp [hrest, h0, List.countP_cons, Nat.add_comm]
          · simp [hrest, h0, List.countP_cons, Nat.add_comm,
              Nat.add_eq_zero, List.map_cons, List.sum_cons]
      | some fc =>
        by_cases h0 : (adjPairs t).count p = 0 <;>
          simp [h0, List.countP_cons, List.map_cons, List.sum_cons,
            Nat.add_assoc, Nat.add_comm 1]
  have := gen traces []
  simpa [transit_matrix] using this

/-- Length of the longest trace of the log. -/
def maxTraceLen (traces : List (List Act)) : ℕ :=
  (traces.map List.length).foldr max 0

theorem le_foldr_max (l : List ℕ) (x : ℕ) (h : x ∈ l) : x ≤ l.foldr max 0 := by
  induction l with
  | nil => cases h
  | cons a rest ih =>
    rcases List.mem_cons.mp h with h | h
    · subst h; exact Nat.le_max_left _ _
    · exact (ih h).trans (Nat.le_max_right _ _)

theorem countP_le_sum_of_counts (traces : List (List Act)) (p : Act × Act) :
    (traces.countP fun t => decide ((adjPairs t).count p ≠ 0)) ≤
      (traces.map fun t => (adjPairs t).count p).sum := by
  induction traces with
  | nil => simp
  | cons t rest ih =>
    simp only [List.countP_cons, List.map_cons, List.sum_cons, decide_not] at ih ⊢
    by_cases h : (adjPairs t).count p = 0 <;> simp [h] <;> omega

/-- C8: every entry `(absolute_count, case_count)` of the table returned by
`transit_matrix` satisfies `case_count ≤ absolute_count`,
`case_count ≤ |cases|` and `absolute_count ≤ |cases| * max_trace_len`; the
absolute count is the number of adjacent occurrences of the pair over the
whole log (one increment per adjacency) and the case count is the number of
cases containing the pair (at most one increment per case per pair). -/
theorem transit_matrix_entry_invariants (traces : List (List Act)) (p : Act × Act)
    (f c : ℕ) (h : alookup (transit_matrix traces) p = some (f, c)) :
    f = (traces.map fun t => (adjPairs t).count p).sum ∧
    c = (traces.countP fun t => decide ((adjPairs t).count p ≠ 0)) ∧
    c ≤ f ∧ c ≤ traces.length ∧ f ≤ traces.length * maxTraceLen traces := by
  rw [transit_matrix_alookup] at h
  by_cases h0 : (traces.map fun t => (adjPairs t).count p).sum = 0
  · rw [if_pos h0] at h; exact absurd h (by simp)
  · rw [if_neg h0] at h
    injection h with h1
    have hf : f = (traces.map fun t => (adjPairs t).count p).sum :=
      (congrArg Prod.fst h1).symm
    have hc : c = traces.countP fun t => decide ((adjPairs t).count p ≠ 0) :=
      (congrArg Prod.snd h1).symm
    subst hf; subst hc
    refine ⟨rfl, rfl, countP_le_sum_of_counts traces p, List.countP_le_length _, ?_⟩
    have hbound : ∀ x ∈ traces.map fun t => (adjPairs t).count p,
        x ≤ maxTraceLen traces := by
      intro x hx
      rcases List.mem_map.mp hx with ⟨t, ht, rfl⟩
      calc (adjPairs t).count p ≤ (adjPairs t).length := List.count_le_length _ _
        _ ≤ t.length := by
            simp only [adjPairs, List.length_zip, List.length_tail]
            omega
        _ ≤ maxTraceLen traces :=
            le_foldr_max _ _ (List.mem_map.mpr ⟨t, ht, rfl⟩)
    calc (traces.map fun t => (adjPairs t).count p).sum
        ≤ (traces.map fun t => (adjPairs t).count p).length * maxTraceLen traces := by
          simpa using List.sum_le_card_nsmul _ _ hbound
      _ = traces.length * maxTraceLen traces := by simp

/-- Witness for C8 at a concrete log: two cases `a b a b` and `a b`; the pair
`(a, b)` has absolute count 3 and case count 2. -/
theorem transit_matrix_entry_invariants_witness :
    alookup (transit_matrix [["a", "b", "a", "b"], ["a", "b"]]) ("a", "b") =
      some (3, 2) ∧
    (3 = ([["a", "b", "a", "b"], ["a", "b"]].map
            fun t => (adjPairs t).count ("a", "b")).sum ∧
     2 = ([["a", "b", "a", "b"], ["a", "b"]].countP
            fun t => decide ((adjPairs t).count ("a", "b") ≠ 0)) ∧
     2 ≤ 3 ∧ 2 ≤ [["a", "b", "a", "b"], ["a", "b"]].length ∧
     3 ≤ [["a", "b", "a", "b"], ["a", "b"]].length *
          maxTraceLen [["a", "b", "a", "b"], ["a", "b"]]) :=
  ⟨by decide, transit_matrix_entry_invariants _ _ 3 2 (by decide)⟩

/-!
Embedding of `Graph.find_cycles` (src/profit/graph.py, lines 231-300) with
`pre_traverse = False` (the default; the `pre_traverse = True` path only picks
a different canonical rotation via `find_nodes_order`).  The graph is given by
the key list of `self.nodes` and the key list of `self.edges`; the log by the
list of its traces (the values of `flat_log`).
-/

/-- Inner helper `check_edges` of `find_cycles` (graph.py lines 248-254):
scan the (ascending) list of bad-edge indices; accept as soon as an index at
or past `f_ind` is seen, reject on an index in `[s_ind, f_ind)`. -/
def check_edges (badEdgesInds : List ℕ) (sInd fInd : ℕ) : Bool :=
  match badEdgesInds with
  | [] => true
  | ind :: rest =>
      if fInd ≤ ind then true
      else if sInd ≤ ind then false
      else check_edges rest sInd fInd

/-- Indices of transitions of the trace that are absent from the graph's
edges (graph.py lines 258-259). -/
def badEdges (edges : List (Act × Act)) (t : List Act) : List ℕ :=
  (adjPairs t).enum.filterMap fun ie => if ie.2 ∈ edges then none else some ie.1

/-- Indices at which a node occurs in the trace (graph.py line 263). -/
def caseIndices (t : List Act) (node : Act) : List ℕ :=
  t.enum.filterMap fun ie => if ie.2 = node then some ie.1 else none

/-- Python slice `t[s:f]`. -/
def slice (t : List Act) (s f : ℕ) : List Act := (t.drop s).take (f - s)

/-- Consecutive pairs of occurrence indices of a node (graph.py line 265). -/
def cyclePairs (t : List Act) (node : Act) : List (ℕ × ℕ) :=
  (caseIndices t node).zip (caseIndices t node).tail

/-- The acceptance condition of graph.py line 268: the candidate slice has no
internal repetition (its extent equals its number of distinct activities) and
no bad transition index lies inside it. -/
def cycleCond (edges : List (Act × Act)) (t : List Act) (s f : ℕ) : Prop :=
  f - s = (slice t s f).dedup.length ∧ check_edges (badEdges edges t) s f = true

instance (edges : List (Act × Act)) (t : List Act) (s f : ℕ) :
    Decidable (cycleCond edges t s f) := by
  unfold cycleCond; infer_instance

/-- The index pairs of one trace that pass the acceptance test, in the order
the nested loops of graph.py lines 262-268 visit them. -/
def countedPairsList (nodes : List Act) (edges : List (Act × Act)) (t : List Act) :
    List (ℕ × ℕ) :=
  nodes.flatMap fun node =>
    (cyclePairs t node).filter fun sf => decide (cycleCond edges t sf.1 sf.2)

/-- The counted cycle occurrences of one trace, in processing order. -/
def traceCandidates (nodes : List Act) (edges : List (Act × Act)) (t : List Act) :
    List (List Act) :=
  (countedPairsList nodes edges t).map fun sf => slice t sf.1 sf.2

/-- Bump of the absolute counter (graph.py lines 270-273). -/
def bumpAbs (cycles : List (List Act × ℕ × ℕ)) (c : List Act) :
    List (List Act × ℕ × ℕ) :=
  match alookup cycles c with
  | none => cycles ++ [(c, (1, 0))]
  | some fc => aupdate cycles c (fc.1 + 1, fc.2)

/-- Bump of the distinct-case counter (graph.py line 276). -/
def bumpCase (cycles : List (List Act × ℕ × ℕ)) (c : List Act) :
    List (List Act × ℕ × ℕ) :=
  match alookup cycles c with
  | none => cycles
  | some fc => aupdate cycles c (fc.1, fc.2 + 1)

/-- Processing of one counted occurrence (graph.py lines 270-277); the second
state component is the per-case set `case_cycles`. -/
def countOccurrence (st : List (List Act × ℕ × ℕ) × List (List Act))
    (c : List Act) : List (List Act × ℕ × ℕ) × List (List Act) :=
  let cycles := bumpAbs st.1 c
  if c ∈ st.2 then (cycles, st.2) else (bumpCase cycles c, st.2 ++ [c])

/-- Processing of one case of the log (graph.py lines 257-277):
`case_cycles` starts empty for every case. -/
def processCase (nodes : List Act) (edges : List (Act × Act))
    (cycles : List (List Act × ℕ × ℕ)) (t : List Act) :
    List (List Act × ℕ × ℕ) :=
  ((traceCandidates nodes edges t).foldl countOccurrence (cycles, [])).1

/-- The cycles dictionary before canonicalization (graph.py lines 256-277);
this is also the returned value when `ordered=True`. -/
def findCyclesRaw (nodes : List Act) (edges : List (Act × Act))
    (traces : List (List Act)) : List (List Act × ℕ × ℕ) :=
  traces.foldl (processCase nodes edges) []

/-- All rotations of a cycle (graph.py lines 287-288). -/
def rotations (c : List Act) : List (List Act) :=
  (List.range c.length).map fun i => c.drop i ++ c.take i

/-- Componentwise sum of the counters of the rotation variants present in the
dictionary (graph.py lines 293-294). -/
def rotationsValue (cycles : List (List Act × ℕ × ℕ)) (seq : List (List Act)) :
    ℕ × ℕ :=
  ((seq.map fun r => ((alookup cycles r).getD (0, 0)).1).sum,
   (seq.map fun r => ((alookup cycles r).getD (0, 0)).2).sum)

/-- Merging of rotation variants when `ordered=False` (graph.py lines
282-298, with `pre_traverse=False` so the representative of a class is its
first-encountered rotation). -/
def sumCycles (cycles : List (List Act × ℕ × ℕ)) : List (List Act × ℕ × ℕ) :=
  (cycles.foldl
    (fun st entry =>
      if entry.1 ∈ st.2 then st
      else (st.1 ++ [(entry.1, rotationsValue cycles (rotations entry.1))],
            st.2 ++ rotations entry.1))
    ([], [])).1

/-- Embedding of `Graph.find_cycles` (graph.py lines 231-300, with
`pre_traverse=False`). -/
def find_cycles (nodes : List Act) (edges : List (Act × Act))
    (traces : List (List Act)) (ordered : Bool) : List (List Act × ℕ × ℕ) :=
  let cycles := findCyclesRaw nodes edges traces
  if ordered then cycles else sumCycles cycles

/-- Embedding of `Graph.find_states` (graph.py lines 302-330); the number of
cases is the number of traces of the log. -/
def find_states (nodes : List Act) (edges : List (Act × Act))
    (traces : List (List Act)) (ordered : Bool) (cycle_rel : ℚ) :
    List (List Act) :=
  let cycles := find_cycles nodes edges traces ordered
  cycles.filterMap fun e =>
    if 1 < e.1.length ∧ cycle_rel ≤ (e.2.2 : ℚ) / (traces.length : ℚ)
    then some e.1 else none

theorem mem_caseIndices (t : List Act) (node : Act) (i : ℕ) :
    i ∈ caseIndices t node ↔ t[i]? = some node := by
  simp only [caseIndices, List.mem_filterMap]
  constructor
  · rintro ⟨⟨j, e⟩, hmem, hf⟩
    by_cases he : e = node
    · subst he
      have hj : j = i := by
        by_contra hne
        simp [if_pos rfl, hne] at hf
      subst hj
      exact List.mem_enum_iff_getElem?.mp hmem
    · simp [he] at hf
  · intro h
    exact ⟨(i, node), List.mem_enum_iff_getElem?.mpr h, by simp⟩

theorem pairwise_enum_fst {α : Type} (l : List α) :
    l.enum.Pairwise fun a b => a.1 < b.1 := by
  have h1 : (l.enum.map Prod.fst).Pairwise (· < ·) := by
    rw [List.enum_map_fst]; exact List.pairwise_lt_range _
  exact List.pairwise_map.mp h1

theorem pairwise_caseIndices (t : List Act) (node : Act) :
    (caseIndices t node).Pairwise (· < ·) := by
  refine List.Pairwise.filterMap _ ?_ (pairwise_enum_fst t)
  intro a b hab x hx y hy
  by_cases ha : a.2 = node
  · by_cases hb : b.2 = node
    · simp [ha, hb] at hx hy; omega
    · simp [hb] at hy
  · simp [ha] at hx

theorem mem_badEdges (edges : List (Act × Act)) (t : List Act) (i : ℕ) :
    i ∈ badEdges edges t ↔
      ∃ a b, t[i]? = some a ∧ t[i + 1]? = some b ∧ (a, b) ∉ edges := by
  have hzip : ∀ p : Act × Act, (adjPairs t)[i]? = some p ↔
      t[i]? = some p.1 ∧ t.tail[i]? = some p.2 := by
    intro p
    simp [adjPairs, List.getElem?_zip_eq_some]
  simp only [badEdges, List.mem_filterMap]
  constructor
  · rintro ⟨⟨j, p⟩, hmem, hf⟩
    by_cases hp : p ∈ edges
    · simp [hp] at hf
    · have hj : j = i := by
        by_contra hne
        simp [hp, hne] at hf
      subst hj
      have := (hzip p).mp (List.mem_enum_iff_getElem?.mp hmem)
      exact ⟨p.1, p.2, this.1, by simpa [List.getElem?_tail] using this.2, hp⟩
  · rintro ⟨a, b, ha, hb, hab⟩
    refine ⟨(i, (a, b)), List.mem_enum_iff_getElem?.mpr ?_, by simp [hab]⟩
    exact (hzip (a, b)).mpr ⟨ha, by simpa [List.getElem?_tail] using hb⟩

theorem pairwise_badEdges (edges : List (Act × Act)) (t : List Act) :
    (badEdges edges t).Pairwise (· < ·) := by
  refine List.Pairwise.filterMap _ ?_ (pairwise_enum_fst (adjPairs t))
  intro a b hab x hx y hy
  by_cases ha : a.2 ∈ edges
  · simp [ha] at hx
  · by_cases hb : b.2 ∈ edges
    · simp [hb] at hy
    · simp [ha, hb] at hx hy; omega

theorem check_edges_iff (bl : List ℕ) (hs : bl.Pairwise (· < ·)) (s f : ℕ) :
    check_edges bl s f = true ↔ ∀ i ∈ bl, ¬(s ≤ i ∧ i < f) := by
  induction bl with
  | nil => simp [check_edges]
  | cons ind rest ih =>
    rw [List.pairwise_cons] at hs
    by_cases h1 : f ≤ ind
    · simp only [check_edges, if_pos h1]
      constructor
      · intro _ i hi
        rcases List.mem_cons.mp hi with rfl | hi
        · omega
        · have := hs.1 i hi; omega
      · intro _; trivial
    · by_cases h2 : s ≤ ind
      · simp only [check_edges, if_neg h1, if_pos h2]
        constructor
        · intro h; cases h
        · intro h
          exact absurd (by constructor <;> omega) (h ind (List.mem_cons_self _ _))
      · simp only [check_edges, if_neg h1, if_neg h2, ih hs.2]
        constructor
        · intro h i hi
          rcases List.mem_cons.mp hi with rfl | hi
          · omega
          · exact h i hi
        · intro h i hi
          exact h i (List.mem_cons_of_mem _ hi)

/-- Membership of consecutive pairs of a strictly increasing list: `(x, y)` is
a consecutive pair exactly when both occur, `x < y`, and nothing of the list
lies strictly between them. -/
theorem mem_zip_tail_sorted :
    ∀ {l : List ℕ}, l.Pairwise (· < ·) → ∀ x y : ℕ,
      ((x, y) ∈ l.zip l.tail ↔
        x ∈ l ∧ y ∈ l ∧ x < y ∧ ∀ z ∈ l, ¬(x < z ∧ z < y))
  | [], _, x, y => by simp
  | [a], _, x, y => by
      simp only [List.zip, List.tail, List.zipWith, List.not_mem_nil, false_iff,
        List.mem_singleton]
      rintro ⟨rfl, rfl, h, -⟩
      omega
  | a :: b :: rest, hl, x, y => by
      have hab : a < b := (List.pairwise_cons.mp hl).1 b (List.mem_cons_self _ _)
      have htl : (b :: rest).Pairwise (· < ·) := (List.pairwise_cons.mp hl).2
      have hhead := (List.pairwise_cons.mp hl).1
      have ih := mem_zip_tail_sorted htl x y
      have hzip : (a :: b :: rest).zip (a :: b :: rest).tail =
          (a, b) :: (b :: rest).zip (b :: rest).tail := rfl
      rw [hzip]
      constructor
      · intro h
        rcases List.mem_cons.mp h with h | h
        · injection h with h1 h2
          subst h1; subst h2
          refine ⟨List.mem_cons_self _ _, List.mem_cons_of_mem _ (List.mem_cons_self _ _),
            hab, ?_⟩
          intro z hz
          rcases List.mem_cons.mp hz with rfl | hz
          · omega
          · rcases List.mem_cons.mp hz with rfl | hz
            · omega
            · have := (List.pairwise_cons.mp htl).1 z hz; omega
        · obtain ⟨hx, hy, hxy, hgap⟩ := ih.mp h
          refine ⟨List.mem_cons_of_mem _ hx, List.mem_cons_of_mem _ hy, hxy, ?_⟩
          intro z hz
          rcases List.mem_cons.mp hz with rfl | hz
          · have := hhead x hx; omega
          · exact hgap z hz
      · rintro ⟨hx, hy, hxy, hgap⟩
        rcases List.mem_cons.mp hx with rfl | hx
        · have hyb : y = b := by
            rcases List.mem_cons.mp hy with rfl | hy
            · omega
            · rcases List.mem_cons.mp hy with rfl | hy
              · rfl
              · exfalso
                have hby : b < y := (List.pairwise_cons.mp htl).1 y hy
                exact hgap b (List.mem_cons_of_mem _ (List.mem_cons_self _ _)) ⟨hab, hby⟩
          subst hyb
          exact List.mem_cons_self _ _
        · have hy' : y ∈ b :: rest := by
            rcases List.mem_cons.mp hy with heq | hy'
            · exfalso; have hax := hhead x hx; omega
            · exact hy'
          refine List.mem_cons_of_mem _ (ih.mpr ⟨hx, hy', hxy, ?_⟩)
          intro z hz
          exact hgap z (List.mem_cons_of_mem _ hz)

/-- Declarative reading of one counted cycle occurrence of a trace:
`s` and `f` are consecutive occurrence positions of a retained node, the
slice `t[s:f]` has no internal repetition (its length equals its number of
distinct activities), and every transition position inside `[s, f)` carries a
transition present in the graph's edges. -/
def IsCountedOccurrence (nodes : List Act) (edges : List (Act × Act))
    (t : List Act) (s f : ℕ) : Prop :=
  s < f ∧ f < t.length ∧
  (∃ node, node ∈ nodes ∧ t[s]? = some node ∧ t[f]? = some node ∧
    ∀ i, s < i → i < f → t[i]? ≠ some node) ∧
  (slice t s f).length = (slice t s f).dedup.length ∧
  (∀ i a b, s ≤ i → i < f → t[i]? = some a → t[i + 1]? = some b → (a, b) ∈ edges)

theorem slice_length (t : List Act) (s f : ℕ) (hf : f ≤ t.length) (hsf : s ≤ f) :
    (slice t s f).length = f - s := by
  simp only [slice, List.length_take, List.length_drop]
  omega

/-- The acceptance test of graph.py line 268 accepts exactly the declarative
counted occurrences. -/
theorem mem_countedPairsList (nodes : List Act) (edges : List (Act × Act))
    (t : List Act) (s f : ℕ) :
    (s, f) ∈ countedPairsList nodes edges t ↔
      IsCountedOccurrence nodes edges t s f := by
  simp only [countedPairsList, List.mem_flatMap, List.mem_filter]
  constructor
  · rintro ⟨node, hnode, hmem, hcond⟩
    rw [decide_eq_true_eq] at hcond
    obtain ⟨hlen, hchk⟩ := hcond
    have hzip := (mem_zip_tail_sorted (pairwise_caseIndices t node) s f).mp hmem
    obtain ⟨hsI, hfI, hsf, hgap⟩ := hzip
    have hsE := (mem_caseIndices t node s).mp hsI
    have hfE := (mem_caseIndices t node f).mp hfI
    have hflen : f < t.length := by
      have := List.getElem?_eq_some_iff.mp hfE
      exact this.1
    refine ⟨hsf, hflen, ⟨node, hnode, hsE, hfE, ?_⟩, ?_, ?_⟩
    · intro i hsi hif hiE
      exact hgap i ((mem_caseIndices t node i).mpr hiE) ⟨hsi, hif⟩
    · rw [slice_length t s f (by omega) (by omega)]
      exact hlen
    · intro i a b hsi hif ha hb
      by_contra hab
      have hiB : i ∈ badEdges edges t :=
        (mem_badEdges edges t i).mpr ⟨a, b, ha, hb, hab⟩
      have := (check_edges_iff (badEdges edges t) (pairwise_badEdges edges t) s f).mp
        hchk i hiB
      exact this ⟨hsi, hif⟩
  · rintro ⟨hsf, hflen, ⟨node, hnode, hsE, hfE, hgap⟩, hlen, hedges⟩
    refine ⟨node, hnode, ?_, ?_⟩
    · refine (mem_zip_tail_sorted (pairwise_caseIndices t node) s f).mpr
        ⟨(mem_caseIndices t node s).mpr hsE, (mem_caseIndices t node f).mpr hfE, hsf, ?_⟩
      intro z hz ⟨hsz, hzf⟩
      exact hgap z hsz hzf ((mem_caseIndices t node z).mp hz)
    · rw [decide_eq_true_eq]
      constructor
      · rw [← slice_length t s f (by omega) (by omega)]
        exact hlen
      · rw [check_edges_iff (badEdges edges t) (pairwise_badEdges edges t) s f]
        intro i hiB ⟨hsi, hif⟩
        obtain ⟨a, b, ha, hb, hab⟩ := (mem_badEdges edges t i).mp hiB
        exact hab (hedges i a b hsi hif ha hb)

theorem bumpAbs_alookup_self (cy : List (List Act × ℕ × ℕ)) (c : List Act) :
    alookup (bumpAbs cy c) c =
      match alookup cy c with
      | none => some (1, 0)
      | some fc => some (fc.1 + 1, fc.2) := by
  cases h : alookup cy c with
  | none => simp [bumpAbs, h, alookup_append, alookup]
  | some fc => simp [bumpAbs, h, alookup_aupdate_self cy c _ (by simp [h])]

theorem bumpAbs_alookup_ne (cy : List (List Act × ℕ × ℕ)) (c c' : List Act)
    (h : c ≠ c') : alookup (bumpAbs cy c) c' = alookup cy c' := by
  cases hc : alookup cy c with
  | none =>
    simp [bumpAbs, hc, alookup_append]
    cases h' : alookup cy c' <;> simp [h', alookup, h]
  | some fc => simp [bumpAbs, hc, alookup_aupdate_ne _ _ _ _ h]

theorem bumpCase_alookup_self (cy : List (List Act × ℕ × ℕ)) (c : List Act) :
    alookup (bumpCase cy c) c =
      match alookup cy c with
      | none => none
      | some fc => some (fc.1, fc.2 + 1) := by
  cases h : alookup cy c with
  | none => simp [bumpCase, h]
  | some fc => simp [bumpCase, h, alookup_aupdate_self cy c _ (by simp [h])]

theorem bumpCase_alookup_ne (cy : List (List Act × ℕ × ℕ)) (c c' : List Act)
    (h : c ≠ c') : alookup (bumpCase cy c) c' = alookup cy c' := by
  cases hc : alookup cy c with
  | none => simp [bumpCase, hc]
  | some fc => simp [bumpCase, hc, alookup_aupdate_ne _ _ _ _ h]

/-- Effect of one case's sequence of counted occurrences on the entry of a
fixed cycle: the absolute counter grows by the number of occurrences of the
cycle, the case counter by one exactly when the cycle occurs and is not yet
in the per-case set. -/
theorem countOccurrence_fold (c : List Act) :
    ∀ (l : List (List Act)) (cy : List (List Act × ℕ × ℕ)) (cc : List (List Act)),
    alookup ((l.foldl countOccurrence (cy, cc)).1) c =
      match alookup cy c with
      | none =>
          if l.count c = 0 then none
          else some (l.count c, if c ∈ cc then 0 else 1)
      | some fc =>
          some (fc.1 + l.count c,
                fc.2 + if l.count c ≠ 0 ∧ c ∉ cc then 1 else 0) := by
  intro l
  induction l with
  | nil =>
    intro cy cc
    cases h : alookup cy c <;> simp [h]
  | cons d rest ih =>
    intro cy cc
    by_cases hd : d = c
    · subst hd
      cases h : alookup cy d with
      | none =>
        by_cases hcc : d ∈ cc
        · have hstep : countOccurrence (cy, cc) d = (bumpAbs cy d, cc) := by
            simp [countOccurrence, hcc]
          simp only [List.foldl_cons, hstep, ih]
          rw [bumpAbs_alookup_self, h]
          simp [hcc, List.count_cons, Nat.add_comm]
        · have hstep : countOccurrence (cy, cc) d =
              (bumpCase (bumpAbs cy d) d, cc ++ [d]) := by
            simp [countOccurrence, hcc]
          simp only [List.foldl_cons, hstep, ih]
          rw [bumpCase_alookup_self, bumpAbs_alookup_self, h]
          simp [hcc, List.count_cons, Nat.add_comm]
      | some fc =>
        by_cases hcc : d ∈ cc
        · have hstep : countOccurrence (cy, cc) d = (bumpAbs cy d, cc) := by
            simp [countOccurrence, hcc]
          simp only [List.foldl_cons, hstep, ih]
          rw [bumpAbs_alookup_self, h]
          simp [hcc, List.count_cons, Nat.add_assoc, Nat.add_comm 1]
        · have hstep : countOccurrence (cy, cc) d =
              (bumpCase (bumpAbs cy d) d, cc ++ [d]) := by
            simp [countOccurrence, hcc]
          simp only [List.foldl_cons, hstep, ih]
          rw [bumpCase_alookup_self, bumpAbs_alookup_self, h]
          simp [hcc, List.count_cons, Nat.add_assoc, Nat.add_comm 1]
    · have hcount : (d :: rest).count c = rest.count c := by
        simp [List.count_cons, hd]
      have hmem : ∀ cc' : List (List Act), (c ∈ cc' ++ [d]) ↔ c ∈ cc' := by
        intro cc'
        simp [List.mem_append, (Ne.symm hd : c ≠ d)]
      have hstep1 : alookup ((countOccurrence (cy, cc) d).1) c = alookup cy c := by
        by_cases hcc : d ∈ cc <;>
          simp [countOccurrence, hcc, bumpAbs_alookup_ne _ _ _ hd,
            bumpCase_alookup_ne _ _ _ hd]
      have hstep2 : (c ∈ (countOccurrence (cy, cc) d).2) ↔ c ∈ cc := by
        by_cases hcc : d ∈ cc <;> simp [countOccurrence, hcc, hmem]
      simp only [List.foldl_cons, hcount]
      have hfold := ih (countOccurrence (cy, cc) d).1 (countOccurrence (cy, cc) d).2
      rw [show (countOccurrence (cy, cc) d) =
        ((countOccurrence (cy, cc) d).1, (countOccurrence (cy, cc) d).2) from rfl]
      rw [hfold, hstep1]
      cases halt : alookup cy c with
      | none =>
        by_cases h0 : rest.count c = 0 <;> simp [h0, hstep2]
      | some fc =>
        by_cases hcc' : c ∈ cc <;> simp [hcc', hstep2]

/-- Effect of processing one case on the entry of a fixed cycle. -/
theorem processCase_alookup (nodes : List Act) (edges : List (Act × Act))
    (cy : List (List Act × ℕ × ℕ)) (t : List Act) (c : List Act) :
    alookup (processCase nodes edges cy t) c =
      match alookup cy c with
      | none =>
          if (traceCandidates nodes edges t).count c = 0 then none
          else some ((traceCandidates nodes edges t).count c, 1)
      | some fc =>
          some (fc.1 + (traceCandidates nodes edges t).count c,
                fc.2 + if (traceCandidates nodes edges t).count c ≠ 0 then 1 else 0) := by
  unfold processCase
  rw [countOccurrence_fold]
  cases h : alookup cy c <;> simp [h]

/-- Per-cycle characterization of the dictionary built by the counting loops
of `find_cycles`: the absolute counter of a cycle is its total number of
counted occurrences over all cases, the case counter the number of cases
with at least one counted occurrence. -/
theorem findCyclesRaw_alookup (nodes : List Act) (edges : List (Act × Act))
    (traces : List (List Act)) (c : List Act) :
    alookup (findCyclesRaw nodes edges traces) c =
      if (traces.map fun t => (traceCandidates nodes edges t).count c).sum = 0 then none
      else some ((traces.map fun t => (traceCandidates nodes edges t).count c).sum,
                 traces.countP fun t =>
                   decide ((traceCandidates nodes edges t).count c ≠ 0)) := by
  have gen : ∀ (ts : List (List Act)) (cy : List (List Act × ℕ × ℕ)),
      alookup (ts.foldl (processCase nodes edges) cy) c =
        match alookup cy c with
        | none =>
            if (ts.map fun t => (traceCandidates nodes edges t).count c).sum = 0 then none
            else some ((ts.map fun t => (traceCandidates nodes edges t).count c).sum,
                       ts.countP fun t =>
                         decide ((traceCandidates nodes edges t).count c ≠ 0))
        | some fc =>
            some (fc.1 + (ts.map fun t => (traceCandidates nodes edges t).count c).sum,
                  fc.2 + ts.countP fun t =>
                    decide ((traceCandidates nodes edges t).count c ≠ 0)) := by
    intro ts
    induction ts with
    | nil =>
      intro cy
      cases h : alookup cy c <;> simp [h]
    | cons t rest ih =>
      intro cy
      simp only [List.foldl_cons, ih, processCase_alookup]
      cases h : alookup cy c with
      | none =>
        by_cases h0 : (traceCandidates nodes edges t).count c = 0
        · simp [h0, List.countP_cons]
        · simp only [h0, if_neg h0]
          by_cases hrest :
              (rest.map fun t => (traceCandidates nodes edges t).count c).sum = 0
          · simp [hrest, h0, List.countP_cons, Nat.add_comm]
          · simp [hrest, h0, List.countP_cons, Nat.add_comm,
              Nat.add_eq_zero, List.map_cons, List.sum_cons]
      | some fc =>
        by_cases h0 : (traceCandidates nodes edges t).count c = 0 <;>
          simp [h0, List.countP_cons, List.map_cons, List.sum_cons,
            Nat.add_assoc, Nat.add_comm 1]
  have := gen traces []
  simpa [findCyclesRaw] using this

/-- C2: in `find_cycles`, for every trace and every retained node with
consecutive occurrence indices `(s, f)`, the sub-sequence `t[s:f]` is counted
as a cycle occurrence iff its length equals its number of distinct activities
and no position carrying a transition absent from the graph's edges falls in
`[s, f)`; the absolute frequency of a cycle is the total number of counted
occurrences (incremented once per occurrence) and its distinct-case frequency
the number of cases with at least one counted occurrence (incremented at most
once per case). -/
theorem find_cycles_occurrence_counting (nodes : List Act)
    (edges : List (Act × Act)) (traces : List (List Act)) (c : List Act) :
    (∀ t s f, (s, f) ∈ countedPairsList nodes edges t ↔
        IsCountedOccurrence nodes edges t s f) ∧
    alookup (find_cycles nodes edges traces true) c =
      (if (traces.map fun t => (traceCandidates nodes edges t).count c).sum = 0
       then none
       else some ((traces.map fun t => (traceCandidates nodes edges t).count c).sum,
                  traces.countP fun t =>
                    decide ((traceCandidates nodes edges t).count c ≠ 0))) :=
  ⟨fun t s f => mem_countedPairsList nodes edges t s f, by
    simpa [find_cycles] using findCyclesRaw_alookup nodes edges traces c⟩

/-- C3: `find_states` returns exactly the cycles of length strictly greater
than one whose distinct-case frequency divided by the number of cases is
greater than or equal to `cycle_rel` (boundary equality included). -/
theorem find_states_membership (nodes : List Act) (edges : List (Act × Act))
    (traces : List (List Act)) (ordered : Bool) (cycle_rel : ℚ) (c : List Act)
    (hcases : 0 < traces.length) :
    c ∈ find_states nodes edges traces ordered cycle_rel ↔
      ∃ af cf, (c, (af, cf)) ∈ find_cycles nodes edges traces ordered ∧
        1 < c.length ∧ cycle_rel ≤ (cf : ℚ) / (traces.length : ℚ) := by
  simp only [find_states, List.mem_filterMap]
  constructor
  · rintro ⟨⟨c', af, cf⟩, hmem, hf⟩
    by_cases hcond : 1 < c'.length ∧ cycle_rel ≤ (cf : ℚ) / (traces.length : ℚ)
    · rw [if_pos hcond] at hf
      injection hf with hf
      subst hf
      exact ⟨af, cf, hmem, hcond⟩
    · rw [if_neg hcond] at hf
      cases hf
  · rintro ⟨af, cf, hmem, hcond⟩
    exact ⟨(c, af, cf), hmem, by rw [if_pos hcond]⟩

/-- Witness for C3 on the concrete scenario of the specification: two cases
`x y x y` and `x y`; with `ordered = true` the cycle `x y` occurs in 1 of 2
cases and is significant at the boundary `cycle_rel = 1/2`. -/
theorem find_states_membership_witness :
    0 < ([["x", "y", "x", "y"], ["x", "y"]] : List (List Act)).length ∧
    ((["x", "y"] ∈ find_states ["x", "y"]
        [("x", "y"), ("y", "x"), ("start", "x"), ("y", "end")]
        [["x", "y", "x", "y"], ["x", "y"]] true (1/2) ↔
      ∃ af cf, ((["x", "y"] : List Act), (af, cf)) ∈ find_cycles ["x", "y"]
          [("x", "y"), ("y", "x"), ("start", "x"), ("y", "end")]
          [["x", "y", "x", "y"], ["x", "y"]] true ∧
        1 < (["x", "y"] : List Act).length ∧
        (1/2 : ℚ) ≤ ((cf : ℚ) /
          (([["x", "y", "x", "y"], ["x", "y"]] : List (List Act)).length : ℚ))) ∧
     ["x", "y"] ∈ find_states ["x", "y"]
        [("x", "y"), ("y", "x"), ("start", "x"), ("y", "end")]
        [["x", "y", "x", "y"], ["x", "y"]] true (1/2)) :=
  ⟨by decide,
   find_states_membership ["x", "y"]
      [("x", "y"), ("y", "x"), ("start", "x"), ("y", "end")]
      [["x", "y", "x", "y"], ["x", "y"]] true (1/2) ["x", "y"] (by decide),
   by
    have h : find_cycles ["x", "y"]
        [("x", "y"), ("y", "x"), ("start", "x"), ("y", "end")]
        [["x", "y", "x", "y"], ["x", "y"]] true =
        [(["x", "y"], (1, 1)), (["y", "x"], (1, 1))] := by decide
    unfold find_states
    rw [h]
    norm_num [List.filterMap]⟩

theorem rotations_eq_map_rotate (c : List Act) :
    rotations c = (List.range c.length).map (c.rotate ·) := by
  unfold rotations
  refine List.map_congr_left ?_
  intro i hi
  rw [List.mem_range] at hi
  rw [List.rotate_eq_drop_append_take (le_of_lt hi)]

theorem mem_rotations_iff (c x : List Act) :
    x ∈ rotations c ↔ ∃ i, i < c.length ∧ x = c.rotate i := by
  rw [rotations_eq_map_rotate]
  simp only [List.mem_map, List.mem_range]
  constructor
  · rintro ⟨i, hi, rfl⟩; exact ⟨i, hi, rfl⟩
  · rintro ⟨i, hi, rfl⟩; exact ⟨i, hi, rfl⟩

theorem ne_nil_of_mem_rotations (c x : List Act) (h : x ∈ rotations c) :
    c ≠ [] := by
  rintro rfl
  simp [rotations] at h

theorem self_mem_rotations (c : List Act) (h : c ≠ []) : c ∈ rotations c := by
  rw [mem_rotations_iff]
  exact ⟨0, List.length_pos.mpr h, (List.rotate_zero c).symm⟩

theorem rotations_mem_trans (c x z : List Act) (hx : x ∈ rotations c)
    (hz : z ∈ rotations x) : z ∈ rotations c := by
  obtain ⟨i, hi, rfl⟩ := (mem_rotations_iff c x).mp hx
  obtain ⟨j, hj, rfl⟩ := (mem_rotations_iff _ z).mp hz
  rw [mem_rotations_iff]
  have hlen : 0 < c.length := by
    rw [List.length_rotate] at hj
    omega
  refine ⟨(i + j) % c.length, Nat.mod_lt _ hlen, ?_⟩
  rw [List.rotate_rotate, List.rotate_mod]

theorem rotations_mem_comm (c x : List Act) (hx : x ∈ rotations c) :
    c ∈ rotations x := by
  obtain ⟨i, hi, rfl⟩ := (mem_rotations_iff c x).mp hx
  rw [mem_rotations_iff]
  rcases Nat.eq_zero_or_pos i with rfl | hpos
  · exact ⟨0, by simpa [List.length_rotate] using hi, by simp⟩
  · refine ⟨c.length - i, by rw [List.length_rotate]; omega, ?_⟩
    rw [List.rotate_rotate]
    have : i + (c.length - i) = c.length := by omega
    rw [this, List.rotate_length]

theorem rotations_mem_iff_of_mem (c x : List Act) (hx : x ∈ rotations c) :
    ∀ z, z ∈ rotations x ↔ z ∈ rotations c := by
  intro z
  constructor
  · intro hz; exact rotations_mem_trans c x z hx hz
  · intro hz; exact rotations_mem_trans x c z (rotations_mem_comm c x hx) hz

theorem alookup_eq_some_of_mem {κ β : Type} [DecidableEq κ]
    (l : List (κ × β)) (k : κ) (v : β) (hmem : (k, v) ∈ l)
    (hnd : (l.map Prod.fst).Nodup) : alookup l k = some v := by
  induction l with
  | nil => cases hmem
  | cons e rest ih =>
    rw [List.map_cons, List.nodup_cons] at hnd
    rcases List.mem_cons.mp hmem with heq | hmem'
    · subst heq; simp
    · have hk : e.1 ≠ k := by
        intro hkk
        exact hnd.1 (hkk ▸ List.mem_map.mpr ⟨(k, v), hmem', rfl⟩)
      simp [alookup, hk, ih hmem' hnd.2]

/-- Every key of the raw cycles dictionary is a nonempty sequence. -/
theorem findCyclesRaw_key_ne_nil (nodes : List Act) (edges : List (Act × Act))
    (traces : List (List Act)) (c : List Act)
    (h : (alookup (findCyclesRaw nodes edges traces) c).isSome) : c ≠ [] := by
  rw [findCyclesRaw_alookup] at h
  by_cases h0 : (traces.map fun t => (traceCandidates nodes edges t).count c).sum = 0
  · rw [if_pos h0] at h; simp at h
  · have hex : ∃ t ∈ traces, (traceCandidates nodes edges t).count c ≠ 0 := by
      by_contra hall
      push_neg at hall
      exact h0 (List.sum_eq_zero (by
        intro x hx
        rcases List.mem_map.mp hx with ⟨t, ht, rfl⟩
        exact hall t ht))
    obtain ⟨t, -, hcnt⟩ := hex
    have hmem : c ∈ traceCandidates nodes edges t := by
      rw [← List.count_pos_iff_mem]
      omega
    rcases List.mem_map.mp hmem with ⟨sf, hsf, rfl⟩
    have hocc := (mem_countedPairsList nodes edges t sf.1 sf.2).mp hsf
    obtain ⟨hsf', hflen, -, -, -⟩ := hocc
    have hlen := slice_length t sf.1 sf.2 (by omega) (by omega)
    intro hnil
    rw [hnil] at hlen
    simp at hlen
    omega

/-- Invariant carried through the canonicalization fold of graph.py lines
283-298. -/
def SumInv (raw acc : List (List Act × ℕ × ℕ)) (left : List (List Act)) : Prop :=
  (∀ x, x ∈ left ↔ ∃ k, k ∈ acc.map Prod.fst ∧ x ∈ rotations k) ∧
  (∀ e ∈ acc, e.2 = rotationsValue raw (rotations e.1) ∧ e.1 ≠ []) ∧
  (∀ k₁ ∈ acc.map Prod.fst, ∀ k₂ ∈ acc.map Prod.fst, k₁ ≠ k₂ → k₁ ∉ rotations k₂) ∧
  (acc.map Prod.fst).Nodup

theorem sumCycles_fold_invariant (raw : List (List Act × ℕ × ℕ)) :
    ∀ (l : List (List Act × ℕ × ℕ)) (acc : List (List Act × ℕ × ℕ))
      (left : List (List Act)),
      SumInv raw acc left → (∀ e ∈ l, e.1 ≠ []) →
      SumInv raw
        (l.foldl (fun st entry =>
          if entry.1 ∈ st.2 then st
          else (st.1 ++ [(entry.1, rotationsValue raw (rotations entry.1))],
                st.2 ++ rotations entry.1)) (acc, left)).1
        (l.foldl (fun st entry =>
          if entry.1 ∈ st.2 then st
          else (st.1 ++ [(entry.1, rotationsValue raw (rotations entry.1))],
                st.2 ++ rotations entry.1)) (acc, left)).2 ∧
      (∀ e ∈ acc, e ∈ (l.foldl (fun st entry =>
          if entry.1 ∈ st.2 then st
          else (st.1 ++ [(entry.1, rotationsValue raw (rotations entry.1))],
                st.2 ++ rotations entry.1)) (acc, left)).1) ∧
      (∀ e ∈ l, ∃ k, k ∈ ((l.foldl (fun st entry =>
          if entry.1 ∈ st.2 then st
          else (st.1 ++ [(entry.1, rotationsValue raw (rotations entry.1))],
                st.2 ++ rotations entry.1)) (acc, left)).1.map Prod.fst) ∧
          e.1 ∈ rotations k) := by
  intro l
  induction l with
  | nil =>
    intro acc left hinv _
    exact ⟨hinv, fun e he => he, fun e he => absurd he (List.not_mem_nil e)⟩
  | cons entry rest ih =>
    intro acc left hinv hne
    obtain ⟨hleft, hval, hpair, hnd⟩ := hinv
    have hentry_ne : entry.1 ≠ [] := hne entry (List.mem_cons_self _ _)
    by_cases hmem : entry.1 ∈ left
    · have hstep : (if entry.1 ∈ left then (acc, left)
          else (acc ++ [(entry.1, rotationsValue raw (rotations entry.1))],
                left ++ rotations entry.1)) = (acc, left) := if_pos hmem
      simp only [List.foldl_cons, hstep]
      obtain ⟨hinv', hpersist, hcover⟩ :=
        ih acc left ⟨hleft, hval, hpair, hnd⟩ (fun e he => hne e (List.mem_cons_of_mem _ he))
      refine ⟨hinv', hpersist, ?_⟩
      intro e he
      rcases List.mem_cons.mp he with rfl | he'
      · obtain ⟨k, hk, hrot⟩ := (hleft e.1).mp hmem
        obtain ⟨v, hv⟩ : ∃ v, (k, v) ∈ acc := by
          rcases List.mem_map.mp hk with ⟨kv, hkv, rfl⟩
          exact ⟨kv.2, by simpa using hkv⟩
        exact ⟨k, List.mem_map.mpr ⟨(k, v), hpersist _ hv, rfl⟩, hrot⟩
      · exact hcover e he'
    · have hstep : (if entry.1 ∈ left then (acc, left)
          else (acc ++ [(entry.1, rotationsValue raw (rotations entry.1))],
                left ++ rotations entry.1)) =
          (acc ++ [(entry.1, rotationsValue raw (rotations entry.1))],
           left ++ rotations entry.1) := if_neg hmem
      simp only [List.foldl_cons, hstep]
      have hnotkey : entry.1 ∉ acc.map Prod.fst := by
        intro hk
        exact hmem ((hleft entry.1).mpr ⟨entry.1, hk, self_mem_rotations _ hentry_ne⟩)
      have hinv' : SumInv raw (acc ++ [(entry.1, rotationsValue raw (rotations entry.1))])
          (left ++ rotations entry.1) := by
        refine ⟨?_, ?_, ?_, ?_⟩
        · intro x
          simp only [List.mem_append, hleft, List.map_append, List.map_cons,
            List.map_nil, List.mem_singleton]
          constructor
          · rintro (⟨k, hk, hrot⟩ | hrot)
            · exact ⟨k, Or.inl hk, hrot⟩
            · exact ⟨entry.1, Or.inr rfl, hrot⟩
          · rintro ⟨k, hk | rfl, hrot⟩
            · exact Or.inl ⟨k, hk, hrot⟩
            · exact Or.inr hrot
        · intro e he
          rcases List.mem_append.mp he with he' | he'
          · exact hval e he'
          · rw [List.mem_singleton] at he'
            subst he'
            exact ⟨rfl, hentry_ne⟩
        · intro k₁ hk₁ k₂ hk₂ hne' hrot
          simp only [List.map_append, List.map_cons, List.map_nil, List.mem_append,
            List.mem_singleton] at hk₁ hk₂
          rcases hk₁ with hk₁ | rfl <;> rcases hk₂ with hk₂ | rfl
          · exact hpair k₁ hk₁ k₂ hk₂ hne' hrot
          · exact hmem ((hleft entry.1).mpr
              ⟨k₁, hk₁, rotations_mem_comm entry.1 k₁ hrot⟩)
          · exact hmem ((hleft entry.1).mpr ⟨k₂, hk₂, hrot⟩)
          · exact hne' rfl
        · rw [List.map_append]
          simp only [List.map_cons, List.map_nil]
          rw [List.nodup_append]
          exact ⟨hnd, List.nodup_singleton _, by
            intro a ha hb
            rw [List.mem_singleton] at hb
            subst hb
            exact hnotkey ha⟩
      obtain ⟨hinvr, hpersist, hcover⟩ := ih _ _ hinv'
        (fun e he => hne e (List.mem_cons_of_mem _ he))
      refine ⟨hinvr, ?_, ?_⟩
      · intro e he
        exact hpersist e (List.mem_append.mpr (Or.inl he))
      · intro e he
        rcases List.mem_cons.mp he with rfl | he'
        · refine ⟨e.1, List.mem_map.mpr ⟨(e.1, rotationsValue raw (rotations e.1)),
            hpersist _ (List.mem_append.mpr (Or.inr (List.mem_singleton.mpr rfl))), rfl⟩,
            self_mem_rotations _ hentry_ne⟩
        · exact hcover e he'

/-- Counterexample to C4 as stated: with `ordered = True` no canonicalization
is performed (graph.py line 282 merges rotations only when `not ordered`), so
on the log with the single case `x y x y` the two rotations `x y` and `y x`
of the same cyclic sequence stay two distinct entries of the returned
mapping, each with its own counts, instead of collapsing to one entry. -/
theorem find_cycles_ordered_rotations_counterexample :
    alookup (find_cycles ["x", "y"] [("x", "y"), ("y", "x")]
        [["x", "y", "x", "y"]] true) ["x", "y"] = some (1, 1) ∧
    alookup (find_cycles ["x", "y"] [("x", "y"), ("y", "x")]
        [["x", "y", "x", "y"]] true) ["y", "x"] = some (1, 1) ∧
    ["y", "x"] ∈ rotations ["x", "y"] ∧
    (["x", "y"] : List Act) ≠ ["y", "x"] := by decide

/-- C4 (amended): when `ordered = False`, all rotations of a cyclic activity
sequence present in the raw counts collapse to exactly one entry of the
mapping returned by `find_cycles`, whose absolute and distinct-case counts
are the componentwise sums over the rotation variants; with `ordered = True`
no such collapsing is performed (see the counterexample). -/
theorem find_cycles_unordered_rotation_collapse (nodes : List Act)
    (edges : List (Act × Act)) (traces : List (List Act)) (c : List Act)
    (h : (alookup (findCyclesRaw nodes edges traces) c).isSome) :
    ∃ r, (r ∈ rotations c ∧ (∀ x, x ∈ rotations r ↔ x ∈ rotations c) ∧
        alookup (find_cycles nodes edges traces false) r =
          some (rotationsValue (findCyclesRaw nodes edges traces) (rotations r))) ∧
    (∀ r', r' ∈ rotations c →
      (alookup (find_cycles nodes edges traces false) r').isSome → r' = r) := by
  have hne : ∀ e ∈ findCyclesRaw nodes edges traces, e.1 ≠ [] := by
    intro e he
    exact findCyclesRaw_key_ne_nil nodes edges traces e.1
      ((mem_keys_iff_alookup _ e.1).mp (List.mem_map.mpr ⟨e, he, rfl⟩))
  have hini : SumInv (findCyclesRaw nodes edges traces) [] [] := by
    refine ⟨by simp, by simp, by simp, List.nodup_nil⟩
  obtain ⟨hinv, hpersist, hcover⟩ :=
    sumCycles_fold_invariant (findCyclesRaw nodes edges traces)
      (findCyclesRaw nodes edges traces) [] [] hini hne
  have hout : find_cycles nodes edges traces false =
      ((findCyclesRaw nodes edges traces).foldl
        (fun st entry =>
          if entry.1 ∈ st.2 then st
          else (st.1 ++ [(entry.1, rotationsValue (findCyclesRaw nodes edges traces)
                  (rotations entry.1))],
                st.2 ++ rotations entry.1)) ([], [])).1 := by
    simp [find_cycles, sumCycles]
  obtain ⟨hleft, hval, hpairwise, hnd⟩ := hinv
  have hc : c ∈ (findCyclesRaw nodes edges traces).map Prod.fst :=
    (mem_keys_iff_alookup _ c).mpr h
  obtain ⟨e, he, heq⟩ := List.mem_map.mp hc
  obtain ⟨k, hk, hrot⟩ := hcover e he
  rw [heq] at hrot
  have hv' : ∃ v, (k, v) ∈ ((findCyclesRaw nodes edges traces).foldl
      (fun st entry =>
        if entry.1 ∈ st.2 then st
        else (st.1 ++ [(entry.1, rotationsValue (findCyclesRaw nodes edges traces)
                (rotations entry.1))],
              st.2 ++ rotations entry.1)) ([], [])).1 := by
    rcases List.mem_map.mp hk with ⟨kv, hkv, hkeq⟩
    exact ⟨kv.2, by rw [← hkeq]; simpa using hkv⟩
  obtain ⟨v, hv⟩ := hv'
  have hvv := hval (k, v) hv
  refine ⟨k, ⟨rotations_mem_comm k c hrot, rotations_mem_iff_of_mem c k
      (rotations_mem_comm k c hrot), ?_⟩, ?_⟩
  · rw [hout, alookup_eq_some_of_mem _ k v hv hnd]
    exact congrArg some hvv.1
  · intro r' hr' hsome
    rw [hout] at hsome
    have hr'k : r' ∈ ((findCyclesRaw nodes edges traces).foldl
        (fun st entry =>
          if entry.1 ∈ st.2 then st
          else (st.1 ++ [(entry.1, rotationsValue (findCyclesRaw nodes edges traces)
                  (rotations entry.1))],
                st.2 ++ rotations entry.1)) ([], [])).1.map Prod.fst :=
      (mem_keys_iff_alookup _ r').mpr hsome
    by_contra hne'
    exact hpairwise r' hr'k k hk hne' (rotations_mem_trans k c r' hrot hr')

/-- Witness for the amended C4: with `ordered = False` on the log with the
single case `x y x y`, the rotation class of `x y` is represented by exactly
one entry carrying the summed counts of its rotation variants. -/
theorem find_cycles_unordered_rotation_collapse_witness :
    (alookup (findCyclesRaw ["x", "y"] [("x", "y"), ("y", "x")]
        [["x", "y", "x", "y"]]) ["x", "y"]).isSome ∧
    (∃ r, (r ∈ rotations ["x", "y"] ∧
        (∀ x, x ∈ rotations r ↔ x ∈ rotations ["x", "y"]) ∧
        alookup (find_cycles ["x", "y"] [("x", "y"), ("y", "x")]
            [["x", "y", "x", "y"]] false) r =
          some (rotationsValue (findCyclesRaw ["x", "y"] [("x", "y"), ("y", "x")]
            [["x", "y", "x", "y"]]) (rotations r))) ∧
      (∀ r', r' ∈ rotations ["x", "y"] →
        (alookup (find_cycles ["x", "y"] [("x", "y"), ("y", "x")]
            [["x", "y", "x", "y"]] false) r').isSome → r' = r)) :=
  ⟨by decide,
   find_cycles_unordered_rotation_collapse ["x", "y"] [("x", "y"), ("y", "x")]
     [["x", "y", "x", "y"]] ["x", "y"] (by decide)⟩

/-!
Embedding of `Graph.replayability_score` (graph.py lines 401-460).  Events of
a trace are activity labels; `is_replayed_element` on a string is membership
in the node keys, on a pair membership in the edge keys.  The two weights are
rationals.
-/

/-- While loop of graph.py lines 428-434: skip events until the first
replayed one and return it with the remaining suffix; `none` when no event of
the trace is a retained node (trace score 0).  The source indexes `trace[m]`
and hence cannot receive an empty trace; the empty list maps to `none` here
and all claims assume nonempty traces. -/
def findStart (nodes : List Act) : List Act → Option (Act × List Act)
  | [] => none
  | e :: rest => if e ∈ nodes then some (e, rest) else findStart nodes rest

/-- Loop body of graph.py lines 439-450, acting on the state
`(z, delta, phi, actual_node)`. -/
def replayStep (nodes : List Act) (edges : List (Act × Act)) :
    ℕ × ℕ × ℕ × Act → Act → ℕ × ℕ × ℕ × Act
  | (z, delta, phi, actual), next =>
    if next ∈ nodes then
      if (actual, next) ∈ edges then (z + 1, delta, phi, next)
      else (z + 1, delta, phi + 1, actual)
    else (z, 1, phi, actual)

/-- Per-trace score `trace_replayability_score` (graph.py lines 425-454). -/
def trace_replayability_score (nodes : List Act) (edges : List (Act × Act))
    (alpha beta : ℚ) (trace : List Act) : ℚ :=
  match findStart nodes trace with
  | none => 0
  | some (a, rest) =>
      let st := rest.foldl (replayStep nodes edges) (1, 0, 0, a)
      |(st.1 : ℚ) / (trace.length : ℚ) - alpha * (st.2.1 : ℚ) -
        beta * (st.2.2.1 : ℚ) / (trace.length : ℚ)|

/-- The log score `replayability_score` (graph.py lines 456-460): sum of the
per-trace scores divided by the number of cases. -/
def replayability_score (nodes : List Act) (edges : List (Act × Act))
    (alpha beta : ℚ) (traces : List (List Act)) : ℚ :=
  (traces.map (trace_replayability_score nodes edges alpha beta)).sum /
    (traces.length : ℚ)

/-- Forced-transition count as the specification describes it: walk the
events after the replay start keeping a current position; a retained event
whose transition from the current position is not a retained edge counts one
and does not advance the position; non-retained events are skipped. -/
def phiWalk (nodes : List Act) (edges : List (Act × Act)) (pos : Act) :
    List Act → ℕ
  | [] => 0
  | e :: rest =>
    if e ∈ nodes then
      if (pos, e) ∈ edges then phiWalk nodes edges e rest
      else phiWalk nodes edges pos rest + 1
    else phiWalk nodes edges pos rest

theorem replayStep_fold (nodes : List Act) (edges : List (Act × Act)) :
    ∀ (l : List Act) (z delta phi : ℕ) (pos : Act),
    ∃ p, l.foldl (replayStep nodes edges) (z, delta, phi, pos) =
      (z + (l.filter fun e => decide (e ∈ nodes)).length,
       (if l.any (fun e => decide (e ∉ nodes)) then 1 else delta),
       phi + phiWalk nodes edges pos l, p) := by
  intro l
  induction l with
  | nil => intro z delta phi pos; exact ⟨pos, by simp [phiWalk]⟩
  | cons e rest ih =>
    intro z delta phi pos
    by_cases he : e ∈ nodes
    · by_cases hedge : (pos, e) ∈ edges
      · have hstep : replayStep nodes edges (z, delta, phi, pos) e =
            (z + 1, delta, phi, e) := by simp [replayStep, he, hedge]
        obtain ⟨p, hp⟩ := ih (z + 1) delta phi e
        refine ⟨p, ?_⟩
        rw [List.foldl_cons, hstep, hp]
        simp [he, phiWalk, hedge, Nat.add_assoc, Nat.add_comm 1]
      · have hstep : replayStep nodes edges (z, delta, phi, pos) e =
            (z + 1, delta, phi + 1, pos) := by simp [replayStep, he, hedge]
        obtain ⟨p, hp⟩ := ih (z + 1) delta (phi + 1) pos
        refine ⟨p, ?_⟩
        rw [List.foldl_cons, hstep, hp]
        simp [he, phiWalk, hedge, Nat.add_assoc, Nat.add_comm 1]
    · have hstep : replayStep nodes edges (z, delta, phi, pos) e =
          (z, 1, phi, pos) := by simp [replayStep, he]
      obtain ⟨p, hp⟩ := ih z 1 phi pos
      refine ⟨p, ?_⟩
      rw [List.foldl_cons, hstep, hp]
      simp [he, phiWalk]

theorem findStart_eq_none (nodes : List Act) (t : List Act) :
    findStart nodes t = none ↔ ∀ e ∈ t, e ∉ nodes := by
  induction t with
  | nil => simp [findStart]
  | cons e rest ih =>
    by_cases he : e ∈ nodes <;> simp [findStart, he, ih]

theorem findStart_eq_some (nodes : List Act) :
    ∀ (pre : List Act) (a : Act) (post : List Act),
    (∀ e ∈ pre, e ∉ nodes) → a ∈ nodes →
    findStart nodes (pre ++ a :: post) = some (a, post) := by
  intro pre
  induction pre with
  | nil => intro a post _ ha; simp [findStart, ha]
  | cons e rest ih =>
    intro a post hpre ha
    have he : e ∉ nodes := hpre e (List.mem_cons_self _ _)
    simp only [List.cons_append, findStart, if_neg he]
    exact ih a post (fun x hx => hpre x (List.mem_cons_of_mem _ hx)) ha

/-- C5: a trace none of whose events is a retained node scores exactly 0;
otherwise, with `m` the first retained position, the trace score equals
`|z/len - alpha*delta - beta*phi/len|` where `z` is the number of retained
events of the trace (the first plus every subsequent one), `delta` is 1 iff
some non-retained event occurs after the replay start (saturating, not
per-event), and `phi` counts retained events whose transition from the
current position is not a retained edge; the log score is the arithmetic
mean of the per-trace scores over all cases. -/
theorem replayability_score_spec (nodes : List Act) (edges : List (Act × Act))
    (alpha beta : ℚ) (traces : List (List Act)) :
    (∀ t, (∀ e ∈ t, e ∉ nodes) →
      trace_replayability_score nodes edges alpha beta t = 0) ∧
    (∀ t pre a post, t = pre ++ a :: post → (∀ e ∈ pre, e ∉ nodes) → a ∈ nodes →
      trace_replayability_score nodes edges alpha beta t =
        |((t.filter fun e => decide (e ∈ nodes)).length : ℚ) / (t.length : ℚ) -
          alpha * (if post.any (fun e => decide (e ∉ nodes)) then 1 else 0) -
          beta * (phiWalk nodes edges a post : ℚ) / (t.length : ℚ)|) ∧
    replayability_score nodes edges alpha beta traces =
      (traces.map (trace_replayability_score nodes edges alpha beta)).sum /
        (traces.length : ℚ) := by
  refine ⟨?_, ?_, rfl⟩
  · intro t ht
    unfold trace_replayability_score
    rw [(findStart_eq_none nodes t).mpr ht]
  · intro t pre a post hteq hpre ha
    subst hteq
    unfold trace_replayability_score
    rw [findStart_eq_some nodes pre a post hpre ha]
    obtain ⟨p, hp⟩ := replayStep_fold nodes edges post 1 0 0 a
    simp only [hp]
    have hfilter : ((pre ++ a :: post).filter fun e => decide (e ∈ nodes)) =
        a :: (post.filter fun e => decide (e ∈ nodes)) := by
      rw [List.filter_append]
      have hpre' : (pre.filter fun e => decide (e ∈ nodes)) = [] := by
        rw [List.filter_eq_nil_iff]
        intro e he
        simpa using hpre e he
      rw [hpre']
      simp [List.filter_cons, ha]
    rw [hfilter]
    have hz : (1 : ℕ) + (post.filter fun e => decide (e ∈ nodes)).length =
        (a :: (post.filter fun e => decide (e ∈ nodes))).length := by
      simp [Nat.add_comm]
    simp only [hz]
    have hdelta : ((if post.any (fun e => decide (e ∉ nodes)) then 1 else (0 : ℕ)) : ℚ) =
        (if post.any (fun e => decide (e ∉ nodes)) then (1 : ℚ) else 0) := by
      by_cases hany : post.any (fun e => decide (e ∉ nodes)) <;> simp [hany]
    simp [hdelta]

/-- Witness for C5 on a concrete trace `x a c b` with retained nodes
`{a, b}` and the single retained edge `(a, b)`: replay starts at `a`,
`z = 2`, `delta = 1` (the skipped `c`), `phi = 0`. -/
theorem replayability_score_spec_witness :
    trace_replayability_score ["a", "b"] [("a", "b")] (1/2) 1
        ["x", "a", "c", "b"] =
      |(((["x", "a", "c", "b"] : List Act).filter
            fun e => decide (e ∈ (["a", "b"] : List Act))).length : ℚ) /
          ((["x", "a", "c", "b"] : List Act).length : ℚ) -
        (1/2 : ℚ) * (if (["c", "b"] : List Act).any
            (fun e => decide (e ∉ (["a", "b"] : List Act))) then 1 else 0) -
        1 * (phiWalk ["a", "b"] [("a", "b")] "a" ["c", "b"] : ℚ) /
          ((["x", "a", "c", "b"] : List Act).length : ℚ)| :=
  (replayability_score_spec ["a", "b"] [("a", "b")] (1/2) 1 []).2.1
    ["x", "a", "c", "b"] ["x"] "a" ["c", "b"] rfl (by decide) (by decide)

/-!
Embedding of `Graph.fitness` (src/profit/graph.py, lines 332-398).  After
aggregation an activity is either a plain label or a tuple-valued meta-state,
so trace events and edge endpoints range over `Elem`.  The transition table
`T` includes the virtual `start`/`end` rows; `ADS_matrix` comes from
`util_pm`, which is not under `src/`, and is modelled from the spec.
-/

/-- An activity as it appears in aggregated logs: a plain label or a
tuple-valued meta-state. -/
inductive Elem where
  | str (s : Act)
  | tup (l : List Act)
deriving DecidableEq

/-- Number of decimal digits of a natural number (Python `len(str(n))`). -/
def digitCount (n : ℕ) : ℕ := Nat.log 10 n + 1

/-- Modelled from the spec: `ADS_matrix` (util_pm, not under src/) classifies
an ordered pair of activities as Always / Sometimes / Never co-occurring in
sequence; a pair observed in every case is classified 'A', one observed in
some but not every case 'S', an unobserved pair 'N'. -/
def ADS_matrix (T : List ((Elem × Elem) × ℕ × ℕ)) (caseCnt : ℕ)
    (a b : Elem) : Char :=
  match alookup T (a, b) with
  | some fc => if fc.2 = caseCnt then 'A' else 'S'
  | none => 'N'

/-- The loss function of graph.py lines 346-363: 1 for a missing
always-observed transition, its case share for a sometimes-observed one, and
the tiny epsilon `10 ** (-len(str(case_cnt)))` otherwise.  In the 'S' branch
the source reads `T[a_i][a_j][1]`; the lookup always succeeds there because
the classifier marks 'S' only for pairs present in the table. -/
def loss (T : List ((Elem × Elem) × ℕ × ℕ)) (caseCnt : ℕ) (a b : Elem) : ℚ :=
  if ADS_matrix T caseCnt a b = 'A' then 1
  else if ADS_matrix T caseCnt a b = 'S' then
    (((alookup T (a, b)).getD (0, 0)).2 : ℚ) / (caseCnt : ℚ)
  else (1/10 : ℚ) ^ digitCount caseCnt

/-- Expansion of one model edge into real-activity transitions (graph.py
lines 367-386): tuple-valued endpoints are expanded into all cross products,
their internal chain transitions and their wrap-around transition.  The
source indexes `e[0][-1]` and `e[0][0]`, so a tuple endpoint is never empty
(meta-states are cycles of length greater than one); the defaults of
`getLastD`/`headD` are unreachable. -/
def expandEdge : Elem × Elem → List (Elem × Elem)
  | (.tup l1, .tup l2) =>
      (l1.flatMap fun ei => l2.map fun ej => (.str ei, .str ej)) ++
      ((l1.zip l1.tail).map fun p => (.str p.1, .str p.2)) ++
      ((l2.zip l2.tail).map fun p => (.str p.1, .str p.2)) ++
      [(.str (l1.getLastD ""), .str (l1.headD "")),
       (.str (l2.getLastD ""), .str (l2.headD ""))]
  | (.tup l1, .str b) =>
      (l1.map fun ei => (.str ei, .str b)) ++
      ((l1.zip l1.tail).map fun p => (.str p.1, .str p.2)) ++
      [(.str (l1.getLastD ""), .str (l1.headD ""))]
  | (.str a, .tup l2) =>
      (l2.map fun ej => (.str a, .str ej)) ++
      ((l2.zip l2.tail).map fun p => (.str p.1, .str p.2)) ++
      [(.str (l2.getLastD ""), .str (l2.headD ""))]
  | (.str a, .str b) => [(.str a, .str b)]

/-- Embedding of `Graph.fitness` (graph.py lines 332-398): per trace, the
virtual start and end transitions always contribute their loss, interior
transitions only when absent from the expanded deduplicated edge set; every
expanded model edge then contributes its own loss. -/
def fitness (edges : List (Elem × Elem)) (T : List ((Elem × Elem) × ℕ × ℕ))
    (traces : List (List Elem)) (caseCnt : ℕ) : ℚ :=
  let edges1 := (edges.flatMap expandEdge).dedup
  (traces.map fun tr =>
      loss T caseCnt (.str "start") (tr.headD (.str "")) +
      (((tr.zip tr.tail).filter fun p => decide (p ∉ edges1)).map
        fun p => loss T caseCnt p.1 p.2).sum +
      loss T caseCnt (tr.getLastD (.str "")) (.str "end")).sum +
  (edges1.map fun p => loss T caseCnt p.1 p.2).sum

theorem alookup_mem {κ β : Type} [DecidableEq κ] (l : List (κ × β)) (k : κ)
    (v : β) (h : alookup l k = some v) : (k, v) ∈ l := by
  induction l with
  | nil => cases h
  | cons e rest ih =>
    by_cases hk : e.1 = k
    · simp only [alookup_cons, if_pos hk] at h
      injection h with h
      subst h
      subst hk
      exact List.mem_cons_self _ _
    · simp only [alookup_cons, if_neg hk] at h
      exact List.mem_cons_of_mem _ (ih h)

theorem loss_nonneg (T : List ((Elem × Elem) × ℕ × ℕ)) (caseCnt : ℕ)
    (a b : Elem) : 0 ≤ loss T caseCnt a b := by
  unfold loss
  by_cases hA : ADS_matrix T caseCnt a b = 'A'
  · simp [hA]
  · by_cases hS : ADS_matrix T caseCnt a b = 'S'
    · simp only [hA, if_neg hA, hS, if_pos hS]
      positivity
    · simp only [hA, if_neg hA, hS, if_neg hS]
      positivity

theorem loss_pos (T : List ((Elem × Elem) × ℕ × ℕ)) (caseCnt : ℕ)
    (hcase : 1 ≤ caseCnt) (hT : ∀ e ∈ T, 1 ≤ e.2.2) (a b : Elem) :
    0 < loss T caseCnt a b := by
  unfold loss
  cases hlk : alookup T (a, b) with
  | none =>
    have hads : ADS_matrix T caseCnt a b = 'N' := by
      unfold ADS_matrix; rw [hlk]
    rw [hads, if_neg (by decide), if_neg (by decide)]
    positivity
  | some fc =>
    have hfc : 1 ≤ fc.2 := hT ((a, b), fc) (alookup_mem T (a, b) fc hlk)
    by_cases hAc : fc.2 = caseCnt
    · have hads : ADS_matrix T caseCnt a b = 'A' := by
        unfold ADS_matrix; rw [hlk]; simp [hAc]
      rw [hads, if_pos rfl]
      norm_num
    · have hads : ADS_matrix T caseCnt a b = 'S' := by
        unfold ADS_matrix; rw [hlk]; simp [hAc]
      rw [hads, if_neg (by decide), if_pos rfl]
      simp only [hlk, Option.getD_some]
      apply div_pos
      · exact_mod_cast Nat.lt_of_lt_of_le Nat.zero_lt_one hfc
      · exact_mod_cast Nat.lt_of_lt_of_le Nat.zero_lt_one hcase

theorem expandEdge_ne_nil (e : Elem × Elem) : expandEdge e ≠ [] := by
  rcases e with ⟨a | l1, b | l2⟩ <;> simp [expandEdge]

theorem fitness_traces_sum_nonneg (edges : List (Elem × Elem))
    (T : List ((Elem × Elem) × ℕ × ℕ)) (traces : List (List Elem))
    (caseCnt : ℕ) :
    0 ≤ (traces.map fun tr =>
      loss T caseCnt (.str "start") (tr.headD (.str "")) +
      (((tr.zip tr.tail).filter
          fun p => decide (p ∉ (edges.flatMap expandEdge).dedup)).map
        fun p => loss T caseCnt p.1 p.2).sum +
      loss T caseCnt (tr.getLastD (.str "")) (.str "end")).sum := by
  apply List.sum_nonneg
  intro x hx
  rcases List.mem_map.mp hx with ⟨tr, -, rfl⟩
  have h1 := loss_nonneg T caseCnt (.str "start") (tr.headD (.str ""))
  have h2 : 0 ≤ (((tr.zip tr.tail).filter
      fun p => decide (p ∉ (edges.flatMap expandEdge).dedup)).map
      fun p => loss T caseCnt p.1 p.2).sum := by
    apply List.sum_nonneg
    intro y hy
    rcases List.mem_map.mp hy with ⟨p, -, rfl⟩
    exact loss_nonneg T caseCnt p.1 p.2
  have h3 := loss_nonneg T caseCnt (tr.getLastD (.str "")) (.str "end")
  linarith

/-- Positivity of `fitness` for a model with at least one edge: the per-edge
loss term alone is a nonempty sum of strictly positive losses. -/
theorem fitness_pos_aux (edges : List (Elem × Elem))
    (T : List ((Elem × Elem) × ℕ × ℕ)) (traces : List (List Elem))
    (caseCnt : ℕ) (hcase : 1 ≤ caseCnt) (hT : ∀ e ∈ T, 1 ≤ e.2.2)
    (hedges : edges ≠ []) : 0 < fitness edges T traces caseCnt := by
  have hfit : fitness edges T traces caseCnt =
      (traces.map fun tr =>
        loss T caseCnt (.str "start") (tr.headD (.str "")) +
        (((tr.zip tr.tail).filter
            fun p => decide (p ∉ (edges.flatMap expandEdge).dedup)).map
          fun p => loss T caseCnt p.1 p.2).sum +
        loss T caseCnt (tr.getLastD (.str "")) (.str "end")).sum +
      (((edges.flatMap expandEdge).dedup).map
        fun p => loss T caseCnt p.1 p.2).sum := rfl
  rw [hfit]
  have hflat : edges.flatMap expandEdge ≠ [] := by
    cases edges with
    | nil => exact absurd rfl hedges
    | cons e rest =>
      simp only [List.flatMap_cons]
      intro hcontra
      rcases List.append_eq_nil.mp hcontra with ⟨h1, -⟩
      exact expandEdge_ne_nil e h1
  have hdedup : (edges.flatMap expandEdge).dedup ≠ [] := by
    intro hcontra
    exact hflat ((List.dedup_eq_nil _).mp hcontra)
  have hpos : 0 < (((edges.flatMap expandEdge).dedup).map
      fun p => loss T caseCnt p.1 p.2).sum := by
    apply List.sum_pos
    · intro x hx
      rcases List.mem_map.mp hx with ⟨p, -, rfl⟩
      exact loss_pos T caseCnt hcase hT p.1 p.2
    · intro hcontra
      exact hdedup (List.map_eq_nil_iff.mp hcontra)
  have hnn := fitness_traces_sum_nonneg edges T traces caseCnt
  linarith

/-- C6 (amended): for every log with at least one case, `fitness` returns a
non-negative value.  A model that replays the log perfectly does not score 0:
the virtual start/end losses of every trace and the per-model-edge loss term
are always added (see the counterexample). -/
theorem fitness_nonneg (edges : List (Elem × Elem))
    (T : List ((Elem × Elem) × ℕ × ℕ)) (traces : List (List Elem))
    (caseCnt : ℕ) (hcase : 1 ≤ caseCnt) :
    0 ≤ fitness edges T traces caseCnt := by
  have hfit : fitness edges T traces caseCnt =
      (traces.map fun tr =>
        loss T caseCnt (.str "start") (tr.headD (.str "")) +
        (((tr.zip tr.tail).filter
            fun p => decide (p ∉ (edges.flatMap expandEdge).dedup)).map
          fun p => loss T caseCnt p.1 p.2).sum +
        loss T caseCnt (tr.getLastD (.str "")) (.str "end")).sum +
      (((edges.flatMap expandEdge).dedup).map
        fun p => loss T caseCnt p.1 p.2).sum := rfl
  rw [hfit]
  have hnn := fitness_traces_sum_nonneg edges T traces caseCnt
  have hed : 0 ≤ (((edges.flatMap expandEdge).dedup).map
      fun p => loss T caseCnt p.1 p.2).sum := by
    apply List.sum_nonneg
    intro x hx
    rcases List.mem_map.mp hx with ⟨p, -, rfl⟩
    exact loss_nonneg T caseCnt p.1 p.2
  linarith

/-- Counterexample to C6 as stated: on the one-case log `a b`, the model
whose edge set is exactly the log's observed transition set (including the
virtual start and end transitions) replays the log perfectly, yet its
fitness is not 0 — the unconditional start/end losses and the per-edge loss
term of graph.py lines 391, 395 and 396-397 are strictly positive. -/
theorem fitness_perfect_model_counterexample :
    (∀ tr ∈ ([[Elem.str "a", Elem.str "b"]] : List (List Elem)),
      ∀ p ∈ tr.zip tr.tail,
        p ∈ ([(Elem.str "start", Elem.str "a"), (Elem.str "a", Elem.str "b"),
              (Elem.str "b", Elem.str "end")] : List (Elem × Elem))) ∧
    fitness [(Elem.str "start", Elem.str "a"), (Elem.str "a", Elem.str "b"),
        (Elem.str "b", Elem.str "end")]
      [((Elem.str "start", Elem.str "a"), (1, 1)),
       ((Elem.str "a", Elem.str "b"), (1, 1)),
       ((Elem.str "b", Elem.str "end"), (1, 1))]
      [[Elem.str "a", Elem.str "b"]] 1 ≠ 0 :=
  ⟨by decide,
   ne_of_gt (fitness_pos_aux _ _ _ 1 (by decide) (by decide) (by decide))⟩

/-- Witness for the amended C6 at the same concrete perfect model. -/
theorem fitness_nonneg_witness :
    1 ≤ 1 ∧
    0 ≤ fitness [(Elem.str "start", Elem.str "a"), (Elem.str "a", Elem.str "b"),
        (Elem.str "b", Elem.str "end")]
      [((Elem.str "start", Elem.str "a"), (1, 1)),
       ((Elem.str "a", Elem.str "b"), (1, 1)),
       ((Elem.str "b", Elem.str "end"), (1, 1))]
      [[Elem.str "a", Elem.str "b"]] 1 :=
  ⟨le_refl 1, fitness_nonneg _ _ _ 1 (le_refl 1)⟩

/-- C10: for every log with at least one case and a transition table whose
case counters are at least 1 (as `transit_matrix` guarantees for every
entry), a graph with a non-empty edge set has strictly positive fitness:
every expanded model edge contributes a strictly positive loss, so the value
0 could only be attained by a model with no edges. -/
theorem fitness_pos_of_edges_nonempty (edges : List (Elem × Elem))
    (T : List ((Elem × Elem) × ℕ × ℕ)) (traces : List (List Elem))
    (caseCnt : ℕ) (hcase : 1 ≤ caseCnt) (hT : ∀ e ∈ T, 1 ≤ e.2.2)
    (hedges : edges ≠ []) : 0 < fitness edges T traces caseCnt :=
  fitness_pos_aux edges T traces caseCnt hcase hT hedges

/-- Witness for C10 at the concrete perfect model of the one-case log
`a b`. -/
theorem fitness_pos_of_edges_nonempty_witness :
    1 ≤ 1 ∧
    (∀ e ∈ ([((Elem.str "start", Elem.str "a"), (1, 1)),
        ((Elem.str "a", Elem.str "b"), (1, 1)),
        ((Elem.str "b", Elem.str "end"), (1, 1))] :
          List ((Elem × Elem) × ℕ × ℕ)), 1 ≤ e.2.2) ∧
    ([(Elem.str "start", Elem.str "a"), (Elem.str "a", Elem.str "b"),
      (Elem.str "b", Elem.str "end")] : List (Elem × Elem)) ≠ [] ∧
    0 < fitness [(Elem.str "start", Elem.str "a"), (Elem.str "a", Elem.str "b"),
        (Elem.str "b", Elem.str "end")]
      [((Elem.str "start", Elem.str "a"), (1, 1)),
       ((Elem.str "a", Elem.str "b"), (1, 1)),
       ((Elem.str "b", Elem.str "end"), (1, 1))]
      [[Elem.str "a", Elem.str "b"]] 1 :=
  ⟨le_refl 1, by decide, by decide,
   fitness_pos_of_edges_nonempty _ _ _ 1 (by decide) (by decide) (by decide)⟩

/-!
Embedding of the transition-selection step of `Graph.update` (graph.py lines
76-88).  The significance computations and the conflict-resolution and
edge-filtering passes (node_significance, edge_sig, rel_sig,
dict_normalization, conflict_resolution, edge_filtering) live in util_pm,
which is not under src/, and the specification explicitly leaves the
conflict-resolution comparator open; the retained activity list, the
normalized self-loop significances and the combined output of
conflict_resolution followed by the two edge_filtering passes therefore
enter as parameters.  Significance values are rationals.
-/

/-- The transitions list built by `update` (graph.py lines 76-88).  `T` is
the transition table as a nested association structure (rows keyed by source
activity, row cells keyed by target activity), `activities` the retained
activities, `filtered` the transition list produced by `conflict_resolution`
and the two `edge_filtering` passes (outside src/), `S_loop_norm` the
normalized self-loop significances.  When `path_rate = 100` the early exit
of lines 77-80 keeps every table pair between retained activities extended
with start and end; otherwise the loop of lines 86-88 appends the self-loops
passing the tolerance test to `filtered`. -/
def updateTransitions (T : List (Act × List (Act × ℕ × ℕ)))
    (activities : List Act) (filtered : List (Act × Act))
    (S_loop_norm : List (Act × ℚ)) (path_rate : ℚ) : List (Act × Act) :=
  if path_rate = 100 then
    T.flatMap fun row =>
      row.2.filterMap fun cell =>
        if row.1 ∈ activities ++ ["start", "end"] ∧
            cell.1 ∈ activities ++ ["start", "end"]
        then some (row.1, cell.1) else none
  else
    filtered ++ (S_loop_norm.filterMap fun av =>
      if av.2 - 1/100 ≥ 1 - path_rate/100 ∨ 1 - path_rate/100 = 0
      then some (av.1, av.1) else none)

/-- C1: when `update` runs with `path_rate = 100`, the retained transition
set is exactly the set of pairs `(a_i, a_j)` present in the transition table
whose both endpoints lie in the retained activities extended with start and
end — no edge-level filtering is applied and no such edge is dropped. -/
theorem updateTransitions_path_rate_100 (T : List (Act × List (Act × ℕ × ℕ)))
    (activities : List Act) (filtered : List (Act × Act))
    (S_loop_norm : List (Act × ℚ)) (path_rate : ℚ) (hpr : path_rate = 100)
    (x y : Act) :
    (x, y) ∈ updateTransitions T activities filtered S_loop_norm path_rate ↔
      (∃ row, (x, row) ∈ T ∧ ∃ v, (y, v) ∈ row) ∧
      x ∈ activities ++ ["start", "end"] ∧
      y ∈ activities ++ ["start", "end"] := by
  subst hpr
  unfold updateTransitions
  rw [if_pos rfl]
  simp only [List.mem_flatMap, List.mem_filterMap]
  constructor
  · rintro ⟨row, hrow, cell, hcell, hf⟩
    by_cases hcond : row.1 ∈ activities ++ ["start", "end"] ∧
        cell.1 ∈ activities ++ ["start", "end"]
    · rw [if_pos hcond] at hf
      injection hf with hf
      have hx : row.1 = x := congrArg Prod.fst hf
      have hy : cell.1 = y := congrArg Prod.snd hf
      subst hx; subst hy
      exact ⟨⟨row.2, by simpa using hrow, cell.2, by simpa using hcell⟩,
        hcond.1, hcond.2⟩
    · rw [if_neg hcond] at hf
      cases hf
  · rintro ⟨⟨row, hrow, v, hv⟩, hx, hy⟩
    exact ⟨(x, row), hrow, (y, v), hv, by rw [if_pos ⟨hx, hy⟩]⟩

/-- Witness for C1 at a concrete table: activities `{a, b}`, table rows for
`a`, `b` and `c`; the pair `(a, b)` is retained, while rows and cells of the
unretained `c` are excluded. -/
theorem updateTransitions_path_rate_100_witness :
    (100 : ℚ) = 100 ∧
    ((("a" : Act), ("b" : Act)) ∈ updateTransitions
        [("a", [("b", (2, 1)), ("c", (1, 1))]), ("b", [("a", (1, 1))]),
         ("c", [("a", (1, 1))])]
        ["a", "b"] [] [] 100 ↔
      (∃ row, (("a" : Act), row) ∈
          [("a", [("b", (2, 1)), ("c", (1, 1))]), ("b", [("a", (1, 1))]),
           ("c", [("a", (1, 1))])] ∧ ∃ v, (("b" : Act), v) ∈ row) ∧
      ("a" : Act) ∈ (["a", "b"] : List Act) ++ ["start", "end"] ∧
      ("b" : Act) ∈ (["a", "b"] : List Act) ++ ["start", "end"]) :=
  ⟨rfl, updateTransitions_path_rate_100
    [("a", [("b", (2, 1)), ("c", (1, 1))]), ("b", [("a", (1, 1))]),
     ("c", [("a", (1, 1))])] ["a", "b"] [] [] 100 rfl "a" "b"⟩

/-- C7: when `update` runs with `path_rate` different from 100 and cutoff
`co = 1 - path_rate/100`, the transitions are the filtered seed extended by
the self-loop loop of graph.py lines 86-88, which appends `(a, a)` exactly
when `S_loop_norm[a] - 0.01 ≥ co` or unconditionally when `co = 0`; the
`-0.01` tolerance is applied literally (here as the exact rational 1/100). -/
theorem updateTransitions_self_loops (T : List (Act × List (Act × ℕ × ℕ)))
    (activities : List Act) (filtered : List (Act × Act))
    (S_loop_norm : List (Act × ℚ)) (path_rate : ℚ) (hpr : path_rate ≠ 100)
    (a : Act) :
    updateTransitions T activities filtered S_loop_norm path_rate =
      filtered ++ (S_loop_norm.filterMap fun av =>
        if av.2 - 1/100 ≥ 1 - path_rate/100 ∨ 1 - path_rate/100 = 0
        then some (av.1, av.1) else none) ∧
    ((a, a) ∈ updateTransitions T activities filtered S_loop_norm path_rate ↔
      (a, a) ∈ filtered ∨
      ∃ s, (a, s) ∈ S_loop_norm ∧
        (s - 1/100 ≥ 1 - path_rate/100 ∨ 1 - path_rate/100 = 0)) := by
  have heq : updateTransitions T activities filtered S_loop_norm path_rate =
      filtered ++ (S_loop_norm.filterMap fun av =>
        if av.2 - 1/100 ≥ 1 - path_rate/100 ∨ 1 - path_rate/100 = 0
        then some (av.1, av.1) else none) := by
    unfold updateTransitions
    rw [if_neg hpr]
  refine ⟨heq, ?_⟩
  rw [heq, List.mem_append, List.mem_filterMap]
  constructor
  · rintro (h | ⟨av, hav, hf⟩)
    · exact Or.inl h
    · by_cases hcond : av.2 - 1/100 ≥ 1 - path_rate/100 ∨ 1 - path_rate/100 = 0
      · rw [if_pos hcond] at hf
        injection hf with hf
        have ha : av.1 = a := congrArg Prod.fst hf
        exact Or.inr ⟨av.2, by rw [← ha]; simpa using hav, hcond⟩
      · rw [if_neg hcond] at hf
        cases hf
  · rintro (h | ⟨s, hs, hcond⟩)
    · exact Or.inl h
    · exact Or.inr ⟨(a, s), hs, by rw [if_pos hcond]⟩

/-- Witness for C7 at `path_rate = 50` (cutoff 1/2): the self-loop of `a`
with normalized significance 51/100 passes the tolerance test
(51/100 - 1/100 ≥ 1/2) while `b` with 49/100 does not. -/
theorem updateTransitions_self_loops_witness :
    (50 : ℚ) ≠ 100 ∧
    (updateTransitions [] ["a", "b"] [("x", "y")]
        [("a", 51/100), ("b", 49/100)] 50 =
      [("x", "y")] ++ ([("a", (51 : ℚ)/100), ("b", 49/100)].filterMap fun av =>
        if av.2 - 1/100 ≥ 1 - (50 : ℚ)/100 ∨ 1 - (50 : ℚ)/100 = 0
        then some (av.1, av.1) else none) ∧
     ((("a" : Act), ("a" : Act)) ∈ updateTransitions [] ["a", "b"] [("x", "y")]
          [("a", 51/100), ("b", 49/100)] 50 ↔
        (("a" : Act), ("a" : Act)) ∈ ([("x", "y")] : List (Act × Act)) ∨
        ∃ s, (("a" : Act), s) ∈ [(("a" : Act), (51 : ℚ)/100), ("b", 49/100)] ∧
          (s - 1/100 ≥ 1 - (50 : ℚ)/100 ∨ 1 - (50 : ℚ)/100 = 0))) :=
  ⟨by norm_num,
   updateTransitions_self_loops [] ["a", "b"] [("x", "y")]
     [("a", 51/100), ("b", 49/100)] 50 (by norm_num) "a"⟩

/-- Graph state: the `nodes` and `edges` dictionaries of a `Graph` object. -/
structure GraphState where
  nodes : List (Act × ℕ × ℕ)
  edges : List ((Act × Act) × ℕ × ℕ)

/-- Embedding of `Graph.aggregate` (graph.py lines 173-205).  The statements
preceding the validity checks (lines 184-190: `find_states`, the rewritten
log, a fresh transition matrix) read the graph and the log and build local
values only — they assign nothing to `self.nodes` or `self.edges`.  The log
rewrite and the two update-based success branches rely on util_agg and
util_pm helpers that are not under src/, so the resulting states of the
`outer` and `inner` branches enter as functions of the detected meta-states.
An invalid `agg_type` or `heuristic` raises `ValueError`; the error value
carries the graph state as it is at raise time. -/
def aggregate (g : GraphState) (traces : List (List Act))
    (agg_type heuristic : String) (ordered : Bool) (cycle_rel : ℚ)
    (updOuter updInner : List (List Act) → GraphState) :
    Except (String × GraphState) GraphState :=
  let SC := find_states (g.nodes.map Prod.fst) (g.edges.map Prod.fst) traces
    ordered cycle_rel
  if agg_type ∉ ["outer", "inner"] then .error ("Invalid aggregation type", g)
  else if heuristic ∉ ["all", "frequent"] then .error ("Invalid heuristic", g)
  else if agg_type = "inner" then .ok (updInner SC) else .ok (updOuter SC)

/-- C9: `aggregate` raises an error for every `agg_type` outside
`{outer, inner}` and for every `heuristic` outside `{all, frequent}`,
whatever the success branches would compute, and when the error is raised
the graph state is exactly the state before the call. -/
theorem aggregate_invalid_no_mutation (g : GraphState)
    (traces : List (List Act)) (agg_type heuristic : String) (ordered : Bool)
    (cycle_rel : ℚ) (updOuter updInner : List (List Act) → GraphState)
    (h : agg_type ∉ (["outer", "inner"] : List String) ∨
         heuristic ∉ (["all", "frequent"] : List String)) :
    ∃ msg, aggregate g traces agg_type heuristic ordered cycle_rel
      updOuter updInner = .error (msg, g) := by
  unfold aggregate
  by_cases ha : agg_type ∉ (["outer", "inner"] : List String)
  · exact ⟨"Invalid aggregation type", by rw [if_pos ha]⟩
  · have hh : heuristic ∉ (["all", "frequent"] : List String) := h.resolve_left ha
    exact ⟨"Invalid heuristic", by rw [if_neg ha, if_pos hh]⟩

/-- Witness for C9: an unknown aggregation type is rejected and the graph
state returned with the error is the original one. -/
theorem aggregate_invalid_no_mutation_witness :
    (("bogus" : String) ∉ (["outer", "inner"] : List String) ∨
     ("all" : String) ∉ (["all", "frequent"] : List String)) ∧
    ∃ msg, aggregate ⟨[("a", (1, 1))], [(("a", "a"), (1, 1))]⟩ [["a"]]
        "bogus" "all" false (1/2) (fun _ => ⟨[], []⟩) (fun _ => ⟨[], []⟩) =
      .error (msg, ⟨[("a", (1, 1))], [(("a", "a"), (1, 1))]⟩) :=
  ⟨Or.inl (by decide),
   aggregate_invalid_no_mutation ⟨[("a", (1, 1))], [(("a", "a"), (1, 1))]⟩
     [["a"]] "bogus" "all" false (1/2) (fun _ => ⟨[], []⟩) (fun _ => ⟨[], []⟩)
     (Or.inl (by decide))⟩

end ProFIT
